import Mathlib

/-!
Verification of the hierarchical folding kernel of
`crates/prover/src/core/backend/icicle/utils.rs`.

The Rust source defines one recursive function `fold` (and a textually
identical `fold_gpu`) that reduces a slice of base-field values to one
extension-field value using a list of per-level folding factors, guarded by
`assert_eq!(n, 1 << folding_factors.len())`.

The embedding keeps the machine semantics of the compiled (release-mode)
code: the shift `1 << k` on a 64-bit `usize` uses the shift amount modulo
the word width 64, and any panic (failed assertion, `unwrap` of `None`,
out-of-bounds index) is modelled as `Option.none`.
-/

set_option maxHeartbeats 1000000

namespace IcicleStwo

section Fold

variable {F E : Type} [CommRing E]

/-- Shallow embedding of `fold` (utils.rs, lines 22–33), generic over the
base field `F` and extension field `E`; `emb` models the `F → E` coercion
`values[0].into()` supplied by the `ExtensionOf` bound.  The guard mirrors
`assert_eq!(n, 1 << folding_factors.len())` with the 64-bit wrapping shift
of the release build; a panic is `none`. -/
def fold (emb : F → E) (values : List F) (folding_factors : List E) : Option E :=
  if values.length = 1 <<< (folding_factors.length % 64) then
    if values.length = 1 then
      match values with
      | v :: _ => some (emb v)
      | [] => none
    else
      match folding_factors with
      | [] => none
      | f :: rest =>
        match fold emb (values.take (values.length / 2)) rest,
              fold emb (values.drop (values.length / 2)) rest with
        | some lhs_val, some rhs_val => some (lhs_val + rhs_val * f)
        | _, _ => none
  else none

/-- Shallow embedding of `fold_gpu` (utils.rs, lines 35–46): the body is
textually identical to `fold` and its recursive calls go to `fold`. -/
def fold_gpu (emb : F → E) (values : List F) (folding_factors : List E) : Option E :=
  if values.length = 1 <<< (folding_factors.length % 64) then
    if values.length = 1 then
      match values with
      | v :: _ => some (emb v)
      | [] => none
    else
      match folding_factors with
      | [] => none
      | f :: rest =>
        match fold emb (values.take (values.length / 2) ) rest,
              fold emb (values.drop (values.length / 2) ) rest with
        | some lhs_val, some rhs_val => some (lhs_val + rhs_val * f)
        | _, _ => none
  else none

/-- The weight that the hierarchical first-half/second-half split assigns to
the leaf at original index `i`: the product, over levels `j` (with `j = 0`
the outermost level), of `folding_factors[j]` for exactly those `j` where bit
`k - 1 - j` of `i` is set (`k` the number of factors). -/
def foldWeight (folding_factors : List E) (i : ℕ) : E :=
  ∏ j ∈ Finset.range folding_factors.length,
    if Nat.testBit i (folding_factors.length - 1 - j) then folding_factors.getD j 1 else 1

/-- Modelled from the spec: the source instantiates `fold` at the base field
`M31` (`crate::core::fields::m31`, not present under `src/`), the prime field
with modulus `2^31 - 1`, and at the extension field `QM31`
(`crate::core::fields::qm31`).  The spec only requires the extension field to
contain an embedded copy of the base field with compatible `+` and `*`; every
concrete scenario in the spec (factors `2, 3, 4`, result `358`) lives in that
embedded copy, so the scenarios are modelled inside `M31` itself with the
identity embedding. -/
abbrev M31 : Type := ZMod 2147483647

/-- One-step unfolding of `fold` on a singleton value list. -/
lemma fold_singleton (emb : F → E) (v : F) (folding_factors : List E)
    (h : folding_factors.length % 64 = 0) :
    fold emb [v] folding_factors = some (emb v) := by
  rw [fold.eq_def]
  simp [h]

/-- If the length guard fails, `fold` panics (returns `none`). -/
lemma fold_guard_fail (emb : F → E) (values : List F) (folding_factors : List E)
    (h : values.length ≠ 1 <<< (folding_factors.length % 64)) :
    fold emb values folding_factors = none := by
  rw [fold.eq_def]
  simp [h]

/-- One-step unfolding of `fold` at an interior level: when the guard passes
and there is more than one value, the result combines the folds of the two
contiguous halves as `lhs_val + rhs_val * f`. -/
lemma fold_cons_step (emb : F → E) (values : List F) (f : E) (rest : List E)
    (hg : values.length = 1 <<< ((rest.length + 1) % 64))
    (hn : values.length ≠ 1) :
    fold emb values (f :: rest) =
      match fold emb (values.take (values.length / 2)) rest,
            fold emb (values.drop (values.length / 2)) rest with
      | some lhs_val, some rhs_val => some (lhs_val + rhs_val * f)
      | _, _ => none := by
  rw [fold.eq_def]
  simp only [List.length_cons] at hg ⊢
  rw [if_pos hg, if_neg hn]

/-- Whenever the machine-arithmetic guard passes, `fold` returns a value:
the assertion is the only panic site reachable from a guard-passing call. -/
lemma fold_guard_pass_isSome (emb : F → E) :
    ∀ (folding_factors : List E) (values : List F),
      values.length = 1 <<< (folding_factors.length % 64) →
      ∃ e, fold emb values folding_factors = some e := by
  intro folding_factors
  induction folding_factors with
  | nil =>
    intro values h
    simp only [List.length_nil, Nat.zero_mod, Nat.shiftLeft_eq, pow_zero, mul_one] at h
    obtain ⟨v, rfl⟩ := List.length_eq_one.mp h
    exact ⟨emb v, fold_singleton emb v [] rfl⟩
  | cons f rest ih =>
    intro values h
    have hg := h
    rw [List.length_cons, Nat.shiftLeft_eq, one_mul] at h
    by_cases hn : values.length = 1
    · obtain ⟨v, rfl⟩ := List.length_eq_one.mp hn
      simp only [List.length_singleton] at h
      have hm0 : (rest.length + 1) % 64 = 0 := by
        by_contra hne
        have h1 : 1 < 2 ^ ((rest.length + 1) % 64) :=
          Nat.one_lt_two_pow_iff.mpr hne
        omega
      exact ⟨emb v, fold_singleton emb v (f :: rest) (by simpa using hm0)⟩
    · -- interior node: the two halves satisfy the guard for `rest`
      have hm1 : 1 ≤ (rest.length + 1) % 64 := by
        rcases Nat.eq_zero_or_pos ((rest.length + 1) % 64) with h0 | h1
        · rw [h0, pow_zero] at h; exact absurd h hn
        · exact h1
      have h2m : (2 : ℕ) ^ ((rest.length + 1) % 64) =
          2 ^ ((rest.length + 1) % 64 - 1) * 2 := by
        conv_lhs => rw [show (rest.length + 1) % 64 =
          ((rest.length + 1) % 64 - 1) + 1 by omega, pow_succ]
      have hhalf : values.length / 2 = 2 ^ ((rest.length + 1) % 64 - 1) := by
        rw [h, h2m]
        exact Nat.mul_div_cancel _ (by norm_num)
      have hrest : rest.length % 64 = (rest.length + 1) % 64 - 1 := by omega
      have htake : (values.take (values.length / 2)).length =
          1 <<< (rest.length % 64) := by
        rw [List.length_take, Nat.shiftLeft_eq, one_mul, hrest, hhalf, h]
        omega
      have hdrop : (values.drop (values.length / 2)).length =
          1 <<< (rest.length % 64) := by
        rw [List.length_drop, Nat.shiftLeft_eq, one_mul, hrest, hhalf, h]
        omega
      obtain ⟨l, hl⟩ := ih (values.take (values.length / 2)) htake
      obtain ⟨r, hr⟩ := ih (values.drop (values.length / 2)) hdrop
      refine ⟨l + r * f, ?_⟩
      rw [fold_cons_step emb values f rest (by simpa using hg) hn, hl, hr]

/-- Adding one outermost factor multiplies the weight by that factor exactly
when the new top bit of the index is set. -/
lemma foldWeight_cons (f : E) (t : List E) (i : ℕ) :
    foldWeight (f :: t) i =
      foldWeight t i * (if Nat.testBit i t.length then f else 1) := by
  unfold foldWeight
  rw [List.length_cons, Finset.prod_range_succ']
  congr 1
  refine Finset.prod_congr rfl fun j hj => ?_
  have hidx : t.length + 1 - 1 - (j + 1) = t.length - 1 - j := by omega
  rw [hidx]
  rfl

/-- The weight only reads the low `t.length` bits of the index, so adding
`2 ^ k` on top (for `k ≥ t.length`) leaves it unchanged. -/
lemma foldWeight_add_pow (t : List E) (i k : ℕ) (hk : t.length ≤ k) :
    foldWeight t (2 ^ k + i) = foldWeight t i := by
  unfold foldWeight
  refine Finset.prod_congr rfl fun j hj => ?_
  have hj' : j < t.length := Finset.mem_range.mp hj
  rw [Nat.testBit_two_pow_add_gt (by omega)]

/-- Closed form of `fold`: the weighted sum of the (embedded) leaves, each
leaf at original index `i` weighted by `foldWeight`. -/
lemma fold_eq_weighted_sum (emb : F → E) :
    ∀ (folding_factors : List E) (values : List F),
      values.length = 2 ^ folding_factors.length → folding_factors.length < 64 →
      fold emb values folding_factors =
        some (∑ i ∈ Finset.range values.length,
          (values.map emb).getD i 0 * foldWeight folding_factors i) := by
  intro folding_factors
  induction folding_factors with
  | nil =>
    intro values h _
    obtain ⟨v, rfl⟩ := List.length_eq_one.mp (by simpa using h)
    rw [fold_singleton emb v [] rfl]
    simp [foldWeight]
  | cons f t ih =>
    intro values h hk
    have hk' : t.length < 64 := by simp only [List.length_cons] at hk; omega
    simp only [List.length_cons] at h
    have hg : values.length = 1 <<< ((t.length + 1) % 64) := by
      rw [Nat.shiftLeft_eq, one_mul,
        Nat.mod_eq_of_lt (by simp only [List.length_cons] at hk; omega)]
      exact h
    have hn : values.length ≠ 1 := by
      have := Nat.one_lt_two_pow_iff.mpr (by omega : t.length + 1 ≠ 0)
      omega
    have hhalf : values.length / 2 = 2 ^ t.length := by
      rw [h, pow_succ]
      exact Nat.mul_div_cancel _ (by norm_num)
    have htake : (values.take (values.length / 2)).length = 2 ^ t.length := by
      rw [List.length_take, hhalf, h, pow_succ]; omega
    have hdrop : (values.drop (values.length / 2)).length = 2 ^ t.length := by
      rw [List.length_drop, hhalf, h, pow_succ]; omega
    have hl := ih (values.take (values.length / 2)) htake hk'
    have hr := ih (values.drop (values.length / 2)) hdrop hk'
    rw [fold_cons_step emb values f t hg hn, hl, hr]
    show some _ = some _
    congr 1
    rw [htake, hdrop]
    -- split the full-range sum into the two halves
    have hsplit : values.length = 2 ^ t.length + 2 ^ t.length := by
      rw [h, pow_succ]; omega
    conv_rhs => rw [hsplit, Finset.sum_range_add]
    -- decompose `values` as take ++ drop to compare the leaf accesses
    have happ : values.map emb =
        (values.take (values.length / 2)).map emb ++
          (values.drop (values.length / 2)).map emb := by
      rw [← List.map_append, List.take_append_drop]
    have hlenmap : ((values.take (values.length / 2)).map emb).length = 2 ^ t.length := by
      rw [List.length_map, htake]
    have hleft : ∀ i ∈ Finset.range (2 ^ t.length),
        (values.map emb).getD i 0 * foldWeight (f :: t) i =
          ((values.take (values.length / 2)).map emb).getD i 0 * foldWeight t i := by
      intro i hi
      have hi' : i < 2 ^ t.length := Finset.mem_range.mp hi
      rw [happ, List.getD_append _ _ _ _ (by rw [hlenmap]; exact hi'),
        foldWeight_cons, Nat.testBit_lt_two_pow hi', if_neg (by simp), mul_one]
    have hright : ∀ i ∈ Finset.range (2 ^ t.length),
        (values.map emb).getD (2 ^ t.length + i) 0 * foldWeight (f :: t) (2 ^ t.length + i) =
          ((values.drop (values.length / 2)).map emb).getD i 0 * foldWeight t i * f := by
      intro i hi
      have hi' : i < 2 ^ t.length := Finset.mem_range.mp hi
      rw [happ, List.getD_append_right _ _ _ _ (by rw [hlenmap]; omega), hlenmap,
        Nat.add_sub_cancel_left, foldWeight_cons, foldWeight_add_pow t i t.length le_rfl,
        Nat.testBit_two_pow_add_eq, Nat.testBit_lt_two_pow hi']
      simp [mul_assoc]
    rw [Finset.sum_congr rfl hleft, Finset.sum_congr rfl hright, ← Finset.sum_mul]

end Fold

section Claims

variable {F E : Type} [CommRing E]

/-- C5: `fold` applied to the base-field values `[1,…,8]` with folding
factors `[2,3,4]` (first factor outermost) returns the extension-field value
`358`, matching `test_fold_works`. -/
theorem fold_test_scenario :
    fold (id : M31 → M31) [1, 2, 3, 4, 5, 6, 7, 8] [2, 3, 4] = some 358 := by
  decide

/-- C6: on a single-element value sequence and the empty factor list, `fold`
returns the element embedded unchanged into the extension field. -/
theorem fold_base_case (emb : F → E) (v : F) :
    fold emb [v] [] = some (emb v) :=
  fold_singleton emb v [] rfl

/-- C3: `fold_gpu` is observably identical to `fold` on every input — same
value when it returns, and a panic (`none`) exactly when `fold` panics. -/
theorem fold_gpu_eq_fold (emb : F → E) (values : List F) (folding_factors : List E) :
    fold_gpu emb values folding_factors = fold emb values folding_factors := by
  rw [fold_gpu.eq_def, fold.eq_def]

/-- C9: `fold` is deterministic and pure — its result depends only on its
two arguments, so equal inputs give identical outputs. -/
theorem fold_deterministic (emb : F → E) (v₁ v₂ : List F) (f₁ f₂ : List E)
    (hv : v₁ = v₂) (hf : f₁ = f₂) :
    fold emb v₁ f₁ = fold emb v₂ f₂ := by
  rw [hv, hf]

/-- Witness for C9 at a concrete input. -/
theorem fold_deterministic_witness :
    ([1, 2] : List M31) = [1, 2] ∧ ([3] : List M31) = [3] ∧
      fold (id : M31 → M31) [1, 2] [3] = fold (id : M31 → M31) [1, 2] [3] :=
  ⟨rfl, rfl, fold_deterministic id [1, 2] [1, 2] [3] [3] rfl rfl⟩

/-- C7: for every value sequence whose length is `2^k` with `k` factors
(`values.length < 2^64` is the `usize` bound every Rust slice satisfies),
`fold` terminates with a single extension-field value. -/
theorem fold_total (emb : F → E) (values : List F) (folding_factors : List E)
    (h : values.length = 2 ^ folding_factors.length)
    (hsize : values.length < 2 ^ 64) :
    ∃ e, fold emb values folding_factors = some e := by
  have hk : folding_factors.length < 64 := by
    rw [h] at hsize
    exact (Nat.pow_lt_pow_iff_right (by norm_num)).mp hsize
  apply fold_guard_pass_isSome
  rw [Nat.shiftLeft_eq, one_mul, Nat.mod_eq_of_lt hk]
  exact h

/-- Witness for C7 at a concrete input. -/
theorem fold_total_witness :
    ([1, 2] : List M31).length = 2 ^ ([3] : List M31).length ∧
      ([1, 2] : List M31).length < 2 ^ 64 ∧
      ∃ e, fold (id : M31 → M31) [1, 2] [3] = some e :=
  ⟨by decide, by norm_num, fold_total id [1, 2] [3] (by decide) (by norm_num)⟩

/-- C10: the guard compares `values.len()` against the machine-shift
`1 << folding_factors.len()`, which wraps the shift amount modulo the word
width 64; for a factor list whose length is a nonzero multiple of 64, a
single-element sequence passes the guard and is returned embedded, even
though `1 ≠ 2 ^ factors.length`. -/
theorem fold_wrapping_guard_bypass (emb : F → E) (folding_factors : List E) (v : F)
    (h64 : folding_factors.length % 64 = 0) (hne : folding_factors.length ≠ 0) :
    fold emb [v] folding_factors = some (emb v) ∧
      ([v] : List F).length ≠ 2 ^ folding_factors.length := by
  refine ⟨fold_singleton emb v folding_factors h64, ?_⟩
  have h1 : 1 < 2 ^ folding_factors.length := Nat.one_lt_two_pow_iff.mpr hne
  simp only [List.length_singleton]
  omega

/-- Witness for C10: 64 factors (a nonzero multiple of the word width). -/
theorem fold_wrapping_guard_bypass_witness :
    (List.replicate 64 (5 : M31)).length % 64 = 0 ∧
      (List.replicate 64 (5 : M31)).length ≠ 0 ∧
      (fold (id : M31 → M31) [7] (List.replicate 64 (5 : M31)) = some 7 ∧
        ([(7 : M31)] : List M31).length ≠ 2 ^ (List.replicate 64 (5 : M31)).length) :=
  ⟨by decide, by decide,
    fold_wrapping_guard_bypass id (List.replicate 64 (5 : M31)) 7 (by decide) (by decide)⟩

/-- Counterexample to C2 as stated: with 64 folding factors and a single
value, `values.length ≠ 2 ^ folding_factors.length`, yet `fold` does not
panic — it returns the value embedded, because the release-mode shift wraps. -/
theorem fold_panic_iff_pow_counterexample :
    fold (id : M31 → M31) [1] (List.replicate 64 (1 : M31)) = some 1 ∧
      ([(1 : M31)] : List M31).length ≠ 2 ^ (List.replicate 64 (1 : M31)).length := by
  constructor
  · decide
  · simp only [List.length_singleton, List.length_replicate]
    norm_num

/-- C2 (amended): `fold` panics exactly when the machine-arithmetic guard
`values.length = 1 <<< (folding_factors.length % 64)` fails (for factor lists
shorter than the 64-bit word width this coincides with
`values.length = 2 ^ folding_factors.length`); this assertion is the only
failure mode, and a sequence of length 6 always panics. -/
theorem fold_panic_iff_guard (emb : F → E) (values : List F) (folding_factors : List E) :
    (fold emb values folding_factors = none ↔
      values.length ≠ 1 <<< (folding_factors.length % 64)) ∧
      (values.length = 6 → fold emb values folding_factors = none) := by
  have hiff : fold emb values folding_factors = none ↔
      values.length ≠ 1 <<< (folding_factors.length % 64) := by
    constructor
    · intro hnone hguard
      obtain ⟨e, he⟩ := fold_guard_pass_isSome emb folding_factors values hguard
      rw [he] at hnone
      exact Option.noConfusion hnone
    · exact fold_guard_fail emb values folding_factors
  refine ⟨hiff, fun h6 => hiff.mpr ?_⟩
  rw [h6, Nat.shiftLeft_eq, one_mul]
  intro hpow
  rcases Nat.lt_or_ge (folding_factors.length % 64) 3 with hlt | hge
  · interval_cases h : folding_factors.length % 64 <;> simp_all
  · have : (2 : ℕ) ^ 3 ≤ 2 ^ (folding_factors.length % 64) :=
      Nat.pow_le_pow_right (by norm_num) hge
    omega

/-- Witness for C2 (amended), covering the length-6 clause concretely. -/
theorem fold_panic_iff_guard_witness :
    (fold (id : M31 → M31) [1, 2, 3, 4, 5, 6] [9] = none ↔
      ([1, 2, 3, 4, 5, 6] : List M31).length ≠ 1 <<< (([9] : List M31).length % 64)) ∧
      (([1, 2, 3, 4, 5, 6] : List M31).length = 6 →
        fold (id : M31 → M31) [1, 2, 3, 4, 5, 6] [9] = none) :=
  fold_panic_iff_guard id [1, 2, 3, 4, 5, 6] [9]

/-- C1: at every level with at least one factor, `fold` splits the values
into two contiguous equal halves, recursively folds both with the tail of
factors, and combines as `left + factors[0] * right`; the halves each have
length `2 ^ tail.length`, so `len(values) = 2^len(factors)` is preserved at
every recursive invocation. -/
theorem fold_level_split (emb : F → E) (f : E) (t : List E) (values : List F)
    (h : values.length = 2 ^ (t.length + 1))
    (hsize : values.length < 2 ^ 64) :
    ∃ l r,
      fold emb (values.take (values.length / 2)) t = some l ∧
      fold emb (values.drop (values.length / 2)) t = some r ∧
      fold emb values (f :: t) = some (l + f * r) ∧
      (values.take (values.length / 2)).length = 2 ^ t.length ∧
      (values.drop (values.length / 2)).length = 2 ^ t.length := by
  have hk : t.length + 1 < 64 := by
    rw [h] at hsize
    exact (Nat.pow_lt_pow_iff_right (by norm_num)).mp hsize
  have hhalf : values.length / 2 = 2 ^ t.length := by
    rw [h, pow_succ]
    exact Nat.mul_div_cancel _ (by norm_num)
  have htake : (values.take (values.length / 2)).length = 2 ^ t.length := by
    rw [List.length_take, hhalf, h, pow_succ]; omega
  have hdrop : (values.drop (values.length / 2)).length = 2 ^ t.length := by
    rw [List.length_drop, hhalf, h, pow_succ]; omega
  have hguard : ∀ w : List F, w.length = 2 ^ t.length →
      w.length = 1 <<< (t.length % 64) := by
    intro w hw
    rw [Nat.shiftLeft_eq, one_mul, Nat.mod_eq_of_lt (by omega)]
    exact hw
  obtain ⟨l, hl⟩ := fold_guard_pass_isSome emb t _ (hguard _ htake)
  obtain ⟨r, hr⟩ := fold_guard_pass_isSome emb t _ (hguard _ hdrop)
  refine ⟨l, r, hl, hr, ?_, htake, hdrop⟩
  have hg : values.length = 1 <<< ((t.length + 1) % 64) := by
    rw [Nat.shiftLeft_eq, one_mul, Nat.mod_eq_of_lt hk]
    exact h
  have hn : values.length ≠ 1 := by
    have := Nat.one_lt_two_pow_iff.mpr (by omega : t.length + 1 ≠ 0)
    omega
  rw [fold_cons_step emb values f t hg hn, hl, hr]
  show some (l + r * f) = some (l + f * r)
  rw [mul_comm r f]

/-- Witness for C1 at a concrete input. -/
theorem fold_level_split_witness :
    ([1, 2, 3, 4] : List M31).length = 2 ^ (([10] : List M31).length + 1) ∧
      ([1, 2, 3, 4] : List M31).length < 2 ^ 64 ∧
      ∃ l r,
        fold (id : M31 → M31) (([1, 2, 3, 4] : List M31).take
          (([1, 2, 3, 4] : List M31).length / 2)) [10] = some l ∧
        fold (id : M31 → M31) (([1, 2, 3, 4] : List M31).drop
          (([1, 2, 3, 4] : List M31).length / 2)) [10] = some r ∧
        fold (id : M31 → M31) [1, 2, 3, 4] (7 :: [10]) = some (l + 7 * r) ∧
        (([1, 2, 3, 4] : List M31).take
          (([1, 2, 3, 4] : List M31).length / 2)).length = 2 ^ ([10] : List M31).length ∧
        (([1, 2, 3, 4] : List M31).drop
          (([1, 2, 3, 4] : List M31).length / 2)).length = 2 ^ ([10] : List M31).length :=
  ⟨by decide, by norm_num,
    fold_level_split id 7 [10] [1, 2, 3, 4] (by decide) (by norm_num)⟩

/-- C8: with the value halves fixed, the map sending the top-level factor
`f` to `fold values (f :: tail)` is affine in `f` — it equals
`fold(left half, tail) + f * fold(right half, tail)`, so the slope is the
fold of the right half. -/
theorem fold_affine_in_factor (emb : F → E) (t : List E) (values : List F)
    (h : values.length = 2 ^ (t.length + 1))
    (hsize : values.length < 2 ^ 64) :
    ∃ l r,
      fold emb (values.take (values.length / 2)) t = some l ∧
      fold emb (values.drop (values.length / 2)) t = some r ∧
      ∀ f : E, fold emb values (f :: t) = some (l + f * r) := by
  have hk : t.length + 1 < 64 := by
    rw [h] at hsize
    exact (Nat.pow_lt_pow_iff_right (by norm_num)).mp hsize
  have hhalf : values.length / 2 = 2 ^ t.length := by
    rw [h, pow_succ]
    exact Nat.mul_div_cancel _ (by norm_num)
  have htake : (values.take (values.length / 2)).length = 2 ^ t.length := by
    rw [List.length_take, hhalf, h, pow_succ]; omega
  have hdrop : (values.drop (values.length / 2)).length = 2 ^ t.length := by
    rw [List.length_drop, hhalf, h, pow_succ]; omega
  have hguard : ∀ w : List F, w.length = 2 ^ t.length →
      w.length = 1 <<< (t.length % 64) := by
    intro w hw
    rw [Nat.shiftLeft_eq, one_mul, Nat.mod_eq_of_lt (by omega)]
    exact hw
  obtain ⟨l, hl⟩ := fold_guard_pass_isSome emb t _ (hguard _ htake)
  obtain ⟨r, hr⟩ := fold_guard_pass_isSome emb t _ (hguard _ hdrop)
  refine ⟨l, r, hl, hr, fun f => ?_⟩
  have hg : values.length = 1 <<< ((t.length + 1) % 64) := by
    rw [Nat.shiftLeft_eq, one_mul, Nat.mod_eq_of_lt hk]
    exact h
  have hn : values.length ≠ 1 := by
    have := Nat.one_lt_two_pow_iff.mpr (by omega : t.length + 1 ≠ 0)
    omega
  rw [fold_cons_step emb values f t hg hn, hl, hr]
  show some (l + r * f) = some (l + f * r)
  rw [mul_comm r f]

/-- Witness for C8 at a concrete input. -/
theorem fold_affine_in_factor_witness :
    ([3, 1, 4, 1] : List M31).length = 2 ^ (([6] : List M31).length + 1) ∧
      ([3, 1, 4, 1] : List M31).length < 2 ^ 64 ∧
      ∃ l r,
        fold (id : M31 → M31) (([3, 1, 4, 1] : List M31).take
          (([3, 1, 4, 1] : List M31).length / 2)) [6] = some l ∧
        fold (id : M31 → M31) (([3, 1, 4, 1] : List M31).drop
          (([3, 1, 4, 1] : List M31).length / 2)) [6] = some r ∧
        ∀ f : M31, fold (id : M31 → M31) [3, 1, 4, 1] (f :: [6]) = some (l + f * r) :=
  ⟨by decide, by norm_num,
    fold_affine_in_factor id [6] [3, 1, 4, 1] (by decide) (by norm_num)⟩

/-- C4: the fold is the weighted sum of the leaves — the leaf at original
index `i` is weighted by the product of `factors[j]` over exactly those
levels `j` where bit `k - 1 - j` of `i` is set, reflecting the contiguous
first-half/second-half split (`values.length < 2^64` is the `usize` bound
every Rust slice satisfies). -/
theorem fold_eq_bit_weighted_sum (emb : F → E) (values : List F) (folding_factors : List E)
    (h : values.length = 2 ^ folding_factors.length)
    (hsize : values.length < 2 ^ 64) :
    fold emb values folding_factors =
      some (∑ i ∈ Finset.range values.length,
        (values.map emb).getD i 0 * foldWeight folding_factors i) := by
  have hk : folding_factors.length < 64 := by
    rw [h] at hsize
    exact (Nat.pow_lt_pow_iff_right (by norm_num)).mp hsize
  exact fold_eq_weighted_sum emb folding_factors values h hk

/-- Witness for C4 at a concrete input. -/
theorem fold_eq_bit_weighted_sum_witness :
    ([1, 2, 3, 4] : List M31).length = 2 ^ ([2, 3] : List M31).length ∧
      ([1, 2, 3, 4] : List M31).length < 2 ^ 64 ∧
      fold (id : M31 → M31) [1, 2, 3, 4] [2, 3] =
        some (∑ i ∈ Finset.range ([1, 2, 3, 4] : List M31).length,
          (([1, 2, 3, 4] : List M31).map (id : M31 → M31)).getD i 0 *
            foldWeight [2, 3] i) :=
  ⟨by decide, by norm_num,
    fold_eq_bit_weighted_sum id [1, 2, 3, 4] [2, 3] (by decide) (by norm_num)⟩

end Claims

end IcicleStwo
